import Mathlib

/-!
Verification development for the dabida repository (ebs_downloader.py and
name_changer.py).  Strings are modelled as `List Char`; Python regular
expressions are embedded as explicit leftmost-match scanners over character
lists.  Python's `\d`, `\s` and the ASCII classes used by the scripts are
modelled over the character ranges the scripts rely on.
-/

/-- Python `\s` (whitespace) restricted to the ASCII whitespace characters. -/
def pySpace (c : Char) : Bool :=
  c = ' ' || c = '\t' || c = '\n' || c = '\x0d' || c = '\x0b' || c = '\x0c'

/-- The character class of `re.sub` in `sanitize_filename`:  backslash,
slash, colon, star, question mark, double quote, angle brackets, pipe. -/
def isForbiddenChar (c : Char) : Bool :=
  c = '\\' || c = '/' || c = ':' || c = '*' || c = '?' || c = '"' ||
  c = '<' || c = '>' || c = '|'

/-- A separator for the purposes of `sanitize_filename`: a forbidden
character (about to be replaced by a space) or whitespace. -/
def isSepChar (c : Char) : Bool := isForbiddenChar c || pySpace c

/-- ASCII decimal digit, the model of `\d` on the inputs the scripts see. -/
def isDigitChar (c : Char) : Bool := '0' ≤ c && c ≤ '9'

/-- The class `[A-Za-z0-9]` of `ext_from_url`. -/
def isAlnumChar (c : Char) : Bool :=
  ('A' ≤ c && c ≤ 'Z') || ('a' ≤ c && c ≤ 'z') || isDigitChar c

/-- Python `str.strip()` : drop whitespace from both ends. -/
def pyStripWs (cs : List Char) : List Char :=
  ((cs.dropWhile pySpace).reverse.dropWhile pySpace).reverse

/-- Python `str.strip(ch)` for a single character argument: drop every
leading and trailing occurrence of that character. -/
def pyStripChar (q : Char) (cs : List Char) : List Char :=
  ((cs.dropWhile (fun c => c = q)).reverse.dropWhile (fun c => c = q)).reverse

/-- Python `str.lstrip(ch)`. -/
def pyLStripChar (q : Char) (cs : List Char) : List Char :=
  cs.dropWhile (fun c => c = q)

/-- State-machine embedding of `re.sub(r'\s+', ' ', name)` : each maximal
whitespace run becomes a single space.  The flag records whether the scan
is inside a whitespace run. -/
def collapseAux : Bool → List Char → List Char
  | _, [] => []
  | inRun, c :: cs =>
    if pySpace c then
      if inRun then collapseAux true cs else ' ' :: collapseAux true cs
    else c :: collapseAux false cs

/-- `re.sub(r'\s+', ' ', name)`. -/
def collapseWs (cs : List Char) : List Char := collapseAux false cs

/-- `sanitize_filename` (ebs_downloader.py lines 14-17): replace each
forbidden character by a space, collapse whitespace runs to one space,
strip both ends. -/
def sanitize_filename (cs : List Char) : List Char :=
  pyStripWs (collapseWs (cs.map (fun c => if isForbiddenChar c then ' ' else c)))

theorem map_id_of_mem (f : Char → Char) :
    ∀ l : List Char, (∀ x ∈ l, f x = x) → l.map f = l := by
  intro l h
  induction l with
  | nil => rfl
  | cons a l ih =>
    rw [List.map_cons, h a (List.mem_cons_self a l),
      ih (fun x hx => h x (List.mem_cons_of_mem a hx))]

/-- Leftmost-match regex engine: try the single-position matcher `m` at
every start position from left to right (including the empty suffix at the
end), returning the first success — the semantics of `re.search`. -/
def scanFirst {α : Type} (m : List Char → Option α) : List Char → Option α
  | [] => m []
  | c :: cs =>
    match m (c :: cs) with
    | some r => some r
    | none => scanFirst m cs

/-- scanFirst is first-match-wins over the suffixes in left-to-right
order: it equals `findSome?` over `tails`. -/
theorem scanFirst_eq_tails {α : Type} (m : List Char → Option α) :
    ∀ cs : List Char, scanFirst m cs = cs.tails.findSome? m := by
  intro cs
  induction cs with
  | nil =>
    simp only [scanFirst, List.tails, List.findSome?]
    cases m [] <;> rfl
  | cons c cs ih =>
    rw [List.tails_cons, List.findSome?_cons]
    cases h : m (c :: cs) with
    | some r => simp [scanFirst, h]
    | none => simp [scanFirst, h, ih]

/-! ### Word decomposition

`wordsBy p cs` is the list of maximal runs of non-`p` characters of `cs`,
in order; `joinSpace` joins words with single spaces.  Together they give
an independent characterisation of `sanitize_filename` and of Python's
`str.split()`. -/

/-- Accumulator-based word splitter (the accumulator holds the current
word reversed), structural so that it evaluates by `decide`. -/
def wordsByAux (p : Char → Bool) : List Char → List Char → List (List Char)
  | acc, [] => if acc.isEmpty then [] else [acc.reverse]
  | acc, c :: cs =>
    if p c then
      if acc.isEmpty then wordsByAux p [] cs else acc.reverse :: wordsByAux p [] cs
    else wordsByAux p (c :: acc) cs

/-- Maximal runs of non-separator characters, in order. -/
def wordsBy (p : Char → Bool) (cs : List Char) : List (List Char) :=
  wordsByAux p [] cs

/-- Join a list of words with single spaces (no leading/trailing space). -/
def joinSpace : List (List Char) → List Char
  | [] => []
  | [w] => w
  | w :: w' :: ws => w ++ ' ' :: joinSpace (w' :: ws)

theorem length_dropWhile_le (p : Char → Bool) :
    ∀ l : List Char, (l.dropWhile p).length ≤ l.length := by
  intro l
  induction l with
  | nil => simp
  | cons a l ih =>
    rw [List.dropWhile_cons]
    by_cases h : p a = true
    · simp only [h, if_true]
      exact Nat.le_trans ih (Nat.le_succ _)
    · simp [h]

theorem takeWhile_all_append (q : Char → Bool) :
    ∀ (l t : List Char), l.all q → (l ++ t).takeWhile q = l ++ t.takeWhile q := by
  intro l t hl
  induction l with
  | nil => simp
  | cons a l ih =>
    simp only [List.all_cons, Bool.and_eq_true] at hl
    simp [List.takeWhile_cons, hl.1, ih hl.2]

theorem dropWhile_all_append (q : Char → Bool) :
    ∀ (l t : List Char), l.all q → (l ++ t).dropWhile q = t.dropWhile q := by
  intro l t hl
  induction l with
  | nil => simp
  | cons a l ih =>
    simp only [List.all_cons, Bool.and_eq_true] at hl
    simp [List.dropWhile_cons, hl.1, ih hl.2]

theorem takeWhile_eq_self_of_all (q : Char → Bool) :
    ∀ l : List Char, l.all q → l.takeWhile q = l := by
  intro l hl
  induction l with
  | nil => rfl
  | cons a l ih =>
    simp only [List.all_cons, Bool.and_eq_true] at hl
    simp [List.takeWhile_cons, hl.1, ih hl.2]

theorem dropWhile_eq_nil_of_all (q : Char → Bool) :
    ∀ l : List Char, l.all q → l.dropWhile q = [] := by
  intro l hl
  induction l with
  | nil => rfl
  | cons a l ih =>
    simp only [List.all_cons, Bool.and_eq_true] at hl
    simp [List.dropWhile_cons, hl.1, ih hl.2]

theorem dropWhile_eq_self_of_all (p : Char → Bool) :
    ∀ l : List Char, l.all (fun c => !p c) → l.dropWhile p = l := by
  intro l hl
  cases l with
  | nil => rfl
  | cons a l =>
    simp only [List.all_cons, Bool.and_eq_true, Bool.not_eq_true'] at hl
    simp [List.dropWhile_cons, hl.1]

theorem dropWhile_eq_self_of_head (p : Char → Bool) :
    ∀ l : List Char, (∀ c, l.head? = some c → p c = false) → l.dropWhile p = l := by
  intro l hl
  cases l with
  | nil => rfl
  | cons a l => simp [List.dropWhile_cons, hl a rfl]

theorem dropWhile_append_of_ne_nil (p : Char → Bool) :
    ∀ (l t : List Char), l.dropWhile p ≠ [] →
      (l ++ t).dropWhile p = l.dropWhile p ++ t := by
  intro l t hl
  induction l with
  | nil => simp at hl
  | cons a l ih =>
    rw [List.dropWhile_cons] at hl ⊢
    by_cases h : p a = true
    · simp only [h, if_true] at hl ⊢
      simpa [List.dropWhile_cons, h] using ih hl
    · simp [h]

/-- Unfolding lemma: `wordsByAux` with a nonempty accumulator finishes the
current word with the maximal non-separator prefix. -/
theorem wordsByAux_acc (p : Char → Bool) :
    ∀ (cs acc : List Char), acc ≠ [] →
      wordsByAux p acc cs =
        (acc.reverse ++ cs.takeWhile (fun d => !p d)) ::
          wordsBy p (cs.dropWhile (fun d => !p d)) := by
  intro cs
  induction cs with
  | nil =>
    intro acc hacc
    simp [wordsByAux, wordsBy, List.isEmpty_iff, hacc]
  | cons c cs ih =>
    intro acc hacc
    by_cases h : p c = true
    · have hne : ¬ acc.isEmpty = true := by simp [List.isEmpty_iff, hacc]
      simp only [wordsByAux, h, if_true, if_neg hne, List.takeWhile_cons,
        List.dropWhile_cons, Bool.not_eq_true', h, Bool.not_true,
        Bool.false_eq_true, if_false, List.append_nil]
      simp only [wordsBy, wordsByAux, h, if_true, List.isEmpty_nil, if_true]
    · have h' : (!p c) = true := by simp [h]
      simp only [wordsByAux, h, Bool.false_eq_true, if_false,
        List.takeWhile_cons, List.dropWhile_cons, h', if_true]
      rw [ih (c :: acc) (by simp)]
      simp

theorem wordsBy_nil (p : Char → Bool) : wordsBy p [] = [] := rfl

theorem wordsBy_cons_sep (p : Char → Bool) (c : Char) (cs : List Char)
    (h : p c = true) : wordsBy p (c :: cs) = wordsBy p cs := by
  simp [wordsBy, wordsByAux, h]

theorem wordsBy_cons_word (p : Char → Bool) (c : Char) (cs : List Char)
    (h : p c = false) :
    wordsBy p (c :: cs) =
      (c :: cs.takeWhile (fun d => !p d)) ::
        wordsBy p (cs.dropWhile (fun d => !p d)) := by
  simp only [wordsBy, wordsByAux, h, Bool.false_eq_true, if_false]
  rw [wordsByAux_acc p cs [c] (by simp)]
  rfl

theorem wordsBy_dropWhile (p : Char → Bool) :
    ∀ cs : List Char, wordsBy p (cs.dropWhile p) = wordsBy p cs := by
  intro cs
  induction cs with
  | nil => rfl
  | cons c cs ih =>
    rw [List.dropWhile_cons]
    by_cases h : p c = true
    · rw [if_pos h, wordsBy_cons_sep p c cs h, ih]
    · rw [if_neg h]

theorem wordsBy_eq_nil_iff (p : Char → Bool) :
    ∀ cs : List Char, wordsBy p cs = [] ↔ cs.all p := by
  intro cs
  induction cs with
  | nil => simp [wordsBy_nil]
  | cons c cs ih =>
    by_cases h : p c = true
    · rw [wordsBy_cons_sep p c cs h]
      simp [h, ih]
    · rw [wordsBy_cons_word p c cs (by simpa using h)]
      simp [h]

/-- Every word produced by `wordsBy` is nonempty and free of separators. -/
theorem wordsBy_sound (p : Char → Bool) :
    ∀ (n : Nat) (cs : List Char), cs.length ≤ n →
      ∀ w ∈ wordsBy p cs, w ≠ [] ∧ w.all (fun c => !p c) := by
  intro n
  induction n with
  | zero =>
    intro cs hlen
    have : cs = [] := List.length_eq_zero.mp (Nat.le_zero.mp hlen)
    subst this
    simp [wordsBy_nil]
  | succ n ih =>
    intro cs hlen
    cases cs with
    | nil => simp [wordsBy_nil]
    | cons c cs =>
      by_cases h : p c = true
      · rw [wordsBy_cons_sep p c cs h]
        exact ih cs (Nat.le_of_succ_le_succ hlen)
      · rw [wordsBy_cons_word p c cs (by simpa using h)]
        intro w hw
        rcases List.mem_cons.mp hw with hw | hw
        · subst hw
          refine ⟨by simp, ?_⟩
          simp only [List.all_cons, Bool.and_eq_true]
          refine ⟨by simp [h], ?_⟩
          rw [List.all_eq_true]
          intro d hd
          have := List.mem_takeWhile_imp (p := fun d => !p d) hd
          simpa using this
        · have hlen' : (cs.dropWhile (fun d => !p d)).length ≤ n :=
            Nat.le_trans (length_dropWhile_le _ cs) (Nat.le_of_succ_le_succ hlen)
          exact ih _ hlen' w hw

/-- The collapse scanner inside a whitespace run is the collapse scanner
after the run. -/
theorem collapseAux_true (cs : List Char) :
    collapseAux true cs = collapseAux false (cs.dropWhile pySpace) := by
  induction cs with
  | nil => rfl
  | cons c cs ih =>
    by_cases h : pySpace c = true
    · simp [collapseAux, h, List.dropWhile_cons, ih]
    · simp [collapseAux, h, List.dropWhile_cons]

/-- Non-whitespace characters pass through the collapse scanner. -/
theorem collapseAux_word (w : List Char) (hw : w.all (fun c => !pySpace c)) :
    ∀ r : List Char, collapseAux false (w ++ r) = w ++ collapseAux false r := by
  intro r
  induction w with
  | nil => rfl
  | cons c w ih =>
    simp only [List.all_cons, Bool.and_eq_true, Bool.not_eq_true'] at hw
    simp only [List.cons_append, collapseAux, hw.1, Bool.false_eq_true, if_false]
    congr 1
    exact ih (by rw [List.all_eq_true]; intro d hd; simp [List.all_eq_true] at hw; simp [hw.2 d hd])

theorem pyStripWs_cons_space (X : List Char) : pyStripWs (' ' :: X) = pyStripWs X := by
  simp [pyStripWs, List.dropWhile_cons, pySpace]

theorem pyStripWs_all_nonspace (w : List Char) (hw : w.all (fun c => !pySpace c)) :
    pyStripWs w = w := by
  have h1 : w.dropWhile pySpace = w := dropWhile_eq_self_of_all pySpace w hw
  have h2 : w.reverse.dropWhile pySpace = w.reverse :=
    dropWhile_eq_self_of_all pySpace w.reverse (by rw [List.all_reverse]; exact hw)
  simp [pyStripWs, h1, h2]

theorem joinSpace_cons_of_ne (w : List Char) (ws : List (List Char)) (h : ws ≠ []) :
    joinSpace (w :: ws) = w ++ ' ' :: joinSpace ws := by
  cases ws with
  | nil => exact absurd rfl h
  | cons w' ws => rfl

theorem dropWhile_head_false (p : Char → Bool) :
    ∀ (l : List Char) (d : Char) (t : List Char),
      l.dropWhile p = d :: t → p d = false := by
  intro l
  induction l with
  | nil => intro d t h; simp at h
  | cons a l ih =>
    intro d t h
    rw [List.dropWhile_cons] at h
    by_cases ha : p a = true
    · rw [if_pos ha] at h; exact ih d t h
    · rw [if_neg ha] at h
      cases h; simpa using ha

theorem all_of_dropWhile_eq_nil (p : Char → Bool) :
    ∀ l : List Char, l.dropWhile p = [] → l.all p := by
  intro l
  induction l with
  | nil => intro _; rfl
  | cons a l ih =>
    intro h
    rw [List.dropWhile_cons] at h
    by_cases ha : p a = true
    · rw [if_pos ha] at h
      simp [ha, ih h]
    · rw [if_neg ha] at h
      simp at h

theorem pyStripWs_word_trailing (w : List Char) (hw : w.all (fun c => !pySpace c)) :
    pyStripWs (w ++ [' ']) = w := by
  cases w with
  | nil => decide
  | cons c w' =>
    have hc : pySpace c = false := by
      simp only [List.all_cons, Bool.and_eq_true, Bool.not_eq_true'] at hw
      exact hw.1
    have h1 : (c :: w' ++ [' ']).dropWhile pySpace = c :: w' ++ [' '] := by
      simp [List.dropWhile_cons, hc]
    have h2 : (c :: w' ++ [' ']).reverse = ' ' :: (c :: w').reverse := by
      simp
    have h3 : (' ' :: (c :: w').reverse).dropWhile pySpace = (c :: w').reverse := by
      rw [List.dropWhile_cons]
      simp only [show pySpace ' ' = true from rfl, if_true]
      exact dropWhile_eq_self_of_all pySpace _ (by rw [List.all_reverse]; exact hw)
    calc pyStripWs (c :: w' ++ [' '])
        = (((c :: w' ++ [' ']).dropWhile pySpace).reverse.dropWhile pySpace).reverse := rfl
      _ = (((c :: w' ++ [' ']).reverse).dropWhile pySpace).reverse := by rw [h1]
      _ = ((' ' :: (c :: w').reverse).dropWhile pySpace).reverse := by rw [h2]
      _ = ((c :: w').reverse).reverse := by rw [h3]
      _ = c :: w' := by simp

theorem pyStripWs_word_sep (w Y : List Char) (hwne : w ≠ [])
    (hw : w.all (fun c => !pySpace c)) (d : Char) (Y' : List Char)
    (hY : Y = d :: Y') (hd : pySpace d = false) :
    pyStripWs (w ++ ' ' :: Y) = w ++ ' ' :: pyStripWs Y := by
  have hfront : (w ++ ' ' :: Y).dropWhile pySpace = w ++ ' ' :: Y := by
    cases w with
    | nil => exact absurd rfl hwne
    | cons c w' =>
      have hc : pySpace c = false := by
        simp only [List.all_cons, Bool.and_eq_true, Bool.not_eq_true'] at hw
        exact hw.1
      simp [List.dropWhile_cons, hc]
  have hYrev : Y.reverse.dropWhile pySpace ≠ [] := by
    intro hcon
    have hall : Y.reverse.all pySpace := all_of_dropWhile_eq_nil pySpace Y.reverse hcon
    rw [List.all_reverse, hY, List.all_cons] at hall
    simp [hd] at hall
  have hrev : (w ++ ' ' :: Y).reverse = Y.reverse ++ ' ' :: w.reverse := by
    simp
  have hback : (Y.reverse ++ ' ' :: w.reverse).dropWhile pySpace =
      Y.reverse.dropWhile pySpace ++ ' ' :: w.reverse :=
    dropWhile_append_of_ne_nil pySpace Y.reverse (' ' :: w.reverse) hYrev
  have hYfront : Y.dropWhile pySpace = Y := by
    rw [hY]; simp [List.dropWhile_cons, hd]
  calc pyStripWs (w ++ ' ' :: Y)
      = ((w ++ ' ' :: Y).reverse.dropWhile pySpace).reverse := by
        rw [pyStripWs, hfront]
    _ = (Y.reverse.dropWhile pySpace ++ ' ' :: w.reverse).reverse := by
        rw [hrev, hback]
    _ = w ++ ' ' :: (Y.reverse.dropWhile pySpace).reverse := by
        simp
    _ = w ++ ' ' :: pyStripWs Y := by
        rw [pyStripWs, hYfront]

/-- `sanitize_filename`'s last two stages (whitespace-collapse then strip)
produce exactly the whitespace-separated words joined by single spaces. -/
theorem strip_collapse_eq_join :
    ∀ (n : Nat) (cs : List Char), cs.length ≤ n →
      pyStripWs (collapseWs cs) = joinSpace (wordsBy pySpace cs) := by
  intro n
  induction n with
  | zero =>
    intro cs hlen
    have : cs = [] := List.length_eq_zero.mp (Nat.le_zero.mp hlen)
    subst this
    rfl
  | succ n ih =>
    intro cs hlen
    cases cs with
    | nil => rfl
    | cons c cs =>
      have hlcs : cs.length ≤ n := Nat.le_of_succ_le_succ hlen
      by_cases hc : pySpace c = true
      · have e1 : collapseWs (c :: cs) = ' ' :: collapseWs (cs.dropWhile pySpace) := by
          rw [show collapseWs (c :: cs) = ' ' :: collapseAux true cs by
            simp [collapseWs, collapseAux, hc]]
          rw [collapseAux_true]
          rfl
        rw [e1, pyStripWs_cons_space,
          ih (cs.dropWhile pySpace) (Nat.le_trans (length_dropWhile_le _ _) hlcs),
          wordsBy_dropWhile, wordsBy_cons_sep pySpace c cs hc]
      · have hc' : pySpace c = false := by simpa using hc
        have hwall : (c :: cs.takeWhile (fun d => !pySpace d)).all (fun d => !pySpace d) := by
          simp only [List.all_cons, Bool.and_eq_true]
          refine ⟨by simp [hc'], ?_⟩
          rw [List.all_eq_true]
          intro d hd
          exact List.mem_takeWhile_imp (p := fun d => !pySpace d) hd
        have hsplit : c :: cs =
            (c :: cs.takeWhile (fun d => !pySpace d)) ++ cs.dropWhile (fun d => !pySpace d) := by
          simp [List.takeWhile_append_dropWhile]
        have e1 : collapseWs (c :: cs) =
            (c :: cs.takeWhile (fun d => !pySpace d)) ++
              collapseAux false (cs.dropWhile (fun d => !pySpace d)) := by
          conv_lhs => rw [collapseWs, hsplit]
          exact collapseAux_word _ hwall _
        rw [wordsBy_cons_word pySpace c cs hc']
        cases hr : cs.dropWhile (fun d => !pySpace d) with
        | nil =>
          rw [e1, hr]
          simp only [collapseAux, List.append_nil]
          rw [pyStripWs_all_nonspace _ hwall, wordsBy_nil]
          rfl
        | cons s rest₁ =>
          have hs : pySpace s = true := by
            have := dropWhile_head_false (fun d => !pySpace d) cs s rest₁ hr
            simpa using this
          have e2 : collapseAux false (s :: rest₁) =
              ' ' :: collapseAux false (rest₁.dropWhile pySpace) := by
            rw [show collapseAux false (s :: rest₁) = ' ' :: collapseAux true rest₁ by
              simp [collapseAux, hs]]
            rw [collapseAux_true]
          have hlr₂ : (rest₁.dropWhile pySpace).length ≤ n := by
            have h1 : (s :: rest₁).length ≤ cs.length := by
              rw [← hr]; exact length_dropWhile_le _ _
            rw [List.length_cons] at h1
            have h2 : rest₁.length ≤ n := by omega
            exact Nat.le_trans (length_dropWhile_le _ _) h2
          have hwrest : wordsBy pySpace (s :: rest₁) = wordsBy pySpace (rest₁.dropWhile pySpace) := by
            rw [wordsBy_cons_sep pySpace s rest₁ hs, wordsBy_dropWhile]
          cases h2 : rest₁.dropWhile pySpace with
          | nil =>
            rw [e1, hr, e2, h2]
            simp only [collapseAux]
            rw [pyStripWs_word_trailing _ hwall, hwrest, h2, wordsBy_nil]
            rfl
          | cons d rest₃ =>
            have hd : pySpace d = false := dropWhile_head_false pySpace rest₁ d rest₃ h2
            have eY : collapseAux false (rest₁.dropWhile pySpace) =
                d :: collapseAux false rest₃ := by
              rw [h2]; simp [collapseAux, hd]
            rw [e1, hr, e2]
            rw [pyStripWs_word_sep _ _ (by simp) hwall d (collapseAux false rest₃) eY hd]
            rw [show collapseAux false (rest₁.dropWhile pySpace) =
                collapseWs (rest₁.dropWhile pySpace) from rfl]
            rw [ih _ hlr₂, hwrest]
            have hne : wordsBy pySpace (rest₁.dropWhile pySpace) ≠ [] := by
              rw [h2, wordsBy_cons_word pySpace d rest₃ hd]
              simp
            rw [joinSpace_cons_of_ne _ _ hne]

theorem pySpace_replace (c : Char) :
    pySpace (if isForbiddenChar c then ' ' else c) = isSepChar c := by
  by_cases h : isForbiddenChar c = true
  · simp [h, isSepChar]
    rfl
  · simp [h, isSepChar]

theorem wordsBy_map_forbidden :
    ∀ (n : Nat) (cs : List Char), cs.length ≤ n →
      wordsBy pySpace (cs.map (fun c => if isForbiddenChar c then ' ' else c)) =
        wordsBy isSepChar cs := by
  intro n
  induction n with
  | zero =>
    intro cs hlen
    have : cs = [] := List.length_eq_zero.mp (Nat.le_zero.mp hlen)
    subst this
    rfl
  | succ n ih =>
    intro cs hlen
    cases cs with
    | nil => rfl
    | cons c cs =>
      have hlcs : cs.length ≤ n := Nat.le_of_succ_le_succ hlen
      have hcompeq : ((fun d => !pySpace d) ∘ (fun c => if isForbiddenChar c then ' ' else c)) =
          fun d => !isSepChar d := by
        funext d
        simp [Function.comp, pySpace_replace]
      by_cases h : isSepChar c = true
      · have hf : pySpace (if isForbiddenChar c then ' ' else c) = true := by
          rw [pySpace_replace]; exact h
        rw [List.map_cons, wordsBy_cons_sep pySpace _ _ hf, wordsBy_cons_sep isSepChar c cs h]
        exact ih cs hlcs
      · have h' : isSepChar c = false := by simpa using h
        have hnf : isForbiddenChar c = false := by
          rcases Bool.or_eq_false_iff.mp (by simpa [isSepChar] using h') with ⟨h1, _⟩
          exact h1
        have hps : pySpace c = false := by
          rcases Bool.or_eq_false_iff.mp (by simpa [isSepChar] using h') with ⟨_, h2⟩
          exact h2
        have hfc : (if isForbiddenChar c then ' ' else c) = c := by simp [hnf]
        rw [List.map_cons, hfc, wordsBy_cons_word pySpace c _ hps,
          wordsBy_cons_word isSepChar c cs h']
        have htake : (cs.map (fun c => if isForbiddenChar c then ' ' else c)).takeWhile
            (fun d => !pySpace d) = cs.takeWhile (fun d => !isSepChar d) := by
          rw [List.takeWhile_map, hcompeq]
          apply map_id_of_mem
          intro x hx
          have hxsep := List.mem_takeWhile_imp (p := fun d => !isSepChar d) hx
          have : isForbiddenChar x = false := by
            rcases Bool.or_eq_false_iff.mp (by simpa [isSepChar] using hxsep) with ⟨h1, _⟩
            exact h1
          simp [this]
        have hdrop : (cs.map (fun c => if isForbiddenChar c then ' ' else c)).dropWhile
            (fun d => !pySpace d) =
            (cs.dropWhile (fun d => !isSepChar d)).map
              (fun c => if isForbiddenChar c then ' ' else c) := by
          rw [List.dropWhile_map, hcompeq]
        rw [htake, hdrop,
          ih (cs.dropWhile (fun d => !isSepChar d))
            (Nat.le_trans (length_dropWhile_le _ _) hlcs)]

/-- `sanitize_filename` equals: split the input at forbidden-or-whitespace
characters into maximal clean runs, then join those runs with single
spaces.  This is the claim's description (replace forbidden characters by
a space, collapse whitespace runs to one space, trim the ends) in closed
form. -/
theorem sanitize_eq_join (cs : List Char) :
    sanitize_filename cs = joinSpace (wordsBy isSepChar cs) := by
  rw [sanitize_filename,
    strip_collapse_eq_join (cs.map (fun c => if isForbiddenChar c then ' ' else c)).length _
      (Nat.le_refl _),
    wordsBy_map_forbidden cs.length cs (Nat.le_refl _)]

theorem wordsBy_word_sep_append (p : Char → Bool) (w : List Char) (s : Char)
    (r : List Char) (hwne : w ≠ []) (hw : w.all (fun c => !p c)) (hs : p s = true) :
    wordsBy p (w ++ s :: r) = w :: wordsBy p r := by
  cases w with
  | nil => exact absurd rfl hwne
  | cons c w₁ =>
    simp only [List.all_cons, Bool.and_eq_true, Bool.not_eq_true'] at hw
    rw [List.cons_append, wordsBy_cons_word p c _ hw.1]
    have hw₁ : w₁.all (fun c => !p c) := by
      rw [List.all_eq_true]
      intro d hd
      simp only [List.all_eq_true] at hw
      simp [hw.2 d hd]
    have htk : (w₁ ++ s :: r).takeWhile (fun d => !p d) = w₁ := by
      rw [takeWhile_all_append _ _ _ hw₁, List.takeWhile_cons]
      simp [hs]
    have hdr : (w₁ ++ s :: r).dropWhile (fun d => !p d) = s :: r := by
      rw [dropWhile_all_append _ _ _ hw₁, List.dropWhile_cons]
      simp [hs]
    rw [htk, hdr, wordsBy_cons_sep p s r hs]

theorem wordsBy_joinSpace (ws : List (List Char))
    (h : ∀ w ∈ ws, w ≠ [] ∧ w.all (fun c => !isSepChar c)) :
    wordsBy isSepChar (joinSpace ws) = ws := by
  induction ws with
  | nil => rfl
  | cons w ws ih =>
    cases ws with
    | nil =>
      obtain ⟨hne, hall⟩ := h w (List.mem_cons_self w [])
      cases w with
      | nil => exact absurd rfl hne
      | cons c w₁ =>
        simp only [List.all_cons, Bool.and_eq_true, Bool.not_eq_true'] at hall
        have hall₁ : w₁.all (fun c => !isSepChar c) := by
          rw [List.all_eq_true]
          intro d hd
          simp only [List.all_eq_true] at hall
          simp [hall.2 d hd]
        rw [show joinSpace [c :: w₁] = c :: w₁ from rfl,
          wordsBy_cons_word isSepChar c w₁ hall.1,
          takeWhile_eq_self_of_all _ w₁ hall₁,
          dropWhile_eq_nil_of_all _ w₁ hall₁, wordsBy_nil]
    | cons w' ws' =>
      obtain ⟨hne, hall⟩ := h w (List.mem_cons_self w (w' :: ws'))
      rw [joinSpace_cons_of_ne w (w' :: ws') (by simp),
        wordsBy_word_sep_append isSepChar w ' ' (joinSpace (w' :: ws')) hne hall
          (by decide),
        ih (fun x hx => h x (List.mem_cons_of_mem w hx))]

/-! ### ebs_downloader.py : title taxonomy helpers -/

/-- Single-position matcher of the pattern `(\d{4})\s*년` of `extract_year`
(ebs_downloader.py line 20): exactly four digits, then the greedily
consumed whitespace run, then the year marker.  Backtracking inside `\s*`
can never succeed (a whitespace character is not the marker), so greedy
consumption is exact. -/
def yearTryAt (cs : List Char) : Option (List Char) :=
  let four := cs.take 4
  if four.length = 4 && four.all isDigitChar then
    match (cs.drop 4).dropWhile pySpace with
    | c :: _ => if c = '년' then some four else none
    | [] => none
  else none

/-- `extract_year` (ebs_downloader.py lines 19-21). -/
def extract_year (title : List Char) : List Char :=
  match scanFirst yearTryAt title with
  | some y => y
  | none => "기타".data

/-- `extract_subject` (ebs_downloader.py lines 23-26): replace NBSP by a
space, strip, split on whitespace, take the last part, defaulting to
"과목" when there are no parts. -/
def extract_subject (title : List Char) : List Char :=
  let t := title.map (fun c => if c = '\xa0' then ' ' else c)
  match (wordsBy pySpace (pyStripWs t)).getLast? with
  | some w => w
  | none => "과목".data

/-! ### name_changer.py : filename-derived taxonomy -/

/-- Single-position matcher of `(20\d{2})` (name_changer.py line 21). -/
def ncYearTryAt (cs : List Char) : Option (List Char) :=
  match cs with
  | c1 :: c2 :: c3 :: c4 :: _ =>
    if c1 = '2' && c2 = '0' && isDigitChar c3 && isDigitChar c4 then
      some [c1, c2, c3, c4]
    else none
  | _ => none

/-- Year extraction of name_changer.py lines 20-25: leftmost `20\d{2}`;
`none` means the file is reported and skipped. -/
def ncYear (name : List Char) : Option (List Char) :=
  scanFirst ncYearTryAt name

/-- Single-position matcher of `(\d{1,2})월` (name_changer.py line 28):
greedy two digits first, backtracking to one digit. -/
def monthTryAt (cs : List Char) : Option (List Char) :=
  match cs with
  | d1 :: rest =>
    if isDigitChar d1 then
      match rest with
      | d2 :: r2 =>
        if isDigitChar d2 && r2.head? = some '월' then some [d1, d2]
        else if rest.head? = some '월' then some [d1]
        else none
      | [] => none
    else none
  | [] => none

/-- Python `str.zfill(2)` on a digit capture. -/
def zfill2 (ds : List Char) : List Char :=
  if ds.length ≥ 2 then ds else List.replicate (2 - ds.length) '0' ++ ds

/-- Month normalization of name_changer.py lines 27-32: leftmost
`(\d{1,2})월` zero-padded to two digits, and `"12"` when the pattern is
absent. -/
def ncMonth (name : List Char) : List Char :=
  match scanFirst monthTryAt name with
  | some ds => zfill2 ds
  | none => "12".data

/-- The eight alternatives of the subject regex (name_changer.py line 35),
in written order. -/
def subjectAlts : List (List Char) :=
  ["물리학Ⅰ".data, "물리학Ⅱ".data, "화학Ⅰ".data, "화학Ⅱ".data,
   "생명과학Ⅰ".data, "생명과학Ⅱ".data, "지구과학Ⅰ".data, "지구과학Ⅱ".data]

/-- The alternation at one position: the first alternative, in written
order, that is a prefix of the suffix. -/
def subjTryAt (cs : List Char) : Option (List Char) :=
  subjectAlts.find? (fun alt => alt.isPrefixOf cs)

/-- Subject regex search of name_changer.py line 35. -/
def ncSubjectMatch (name : List Char) : Option (List Char) :=
  scanFirst subjTryAt name

/-- The `subject_map` dictionary of name_changer.py lines 6-15. -/
def subject_map (s : List Char) : List Char :=
  if s = "물리학Ⅰ".data then "물리1".data
  else if s = "물리학Ⅱ".data then "물리2".data
  else if s = "화학Ⅰ".data then "화학1".data
  else if s = "화학Ⅱ".data then "화학2".data
  else if s = "생명과학Ⅰ".data then "생명과학1".data
  else if s = "생명과학Ⅱ".data then "생명과학2".data
  else if s = "지구과학Ⅰ".data then "지구과학1".data
  else if s = "지구과학Ⅱ".data then "지구과학2".data
  else s

/-- Subject derivation of name_changer.py lines 34-39: regex search then
dictionary lookup; `none` means the file is reported and skipped. -/
def ncSubject (name : List Char) : Option (List Char) :=
  (ncSubjectMatch name).map subject_map

example : extract_year ("2023년 수능".data) = ("2023".data) := by decide
example : extract_year ("고3 모의고사".data) = ("기타".data) := by decide
example : extract_subject ("2023년 수능 물리학Ⅰ".data) = ("물리학Ⅰ".data) := by decide
example : ncMonth ("2023년 6월 모의평가".data) = ("06".data) := by decide
example : ncMonth ("2023 수능".data) = ("12".data) := by decide
example : ncSubject ("2023_06_물리학Ⅰ_문제".data) = some ("물리1".data) := by decide
example : ncSubject ("화학".data) = none := by decide

/-! ### ebs_downloader.py : URL handling -/

/-- ASCII letter. -/
def isAlphaChar (c : Char) : Bool :=
  ('A' ≤ c && c ≤ 'Z') || ('a' ≤ c && c ≤ 'z')

/-- Character allowed after the first letter of a URL scheme. -/
def isSchemeChar (c : Char) : Bool :=
  isAlphaChar c || isDigitChar c || c = '+' || c = '-' || c = '.'

/-- Whether the string starts with `scheme:` for some RFC 3986 scheme
(a letter, then letters/digits/`+`/`-`/`.`, then a colon). -/
def hasScheme (cs : List Char) : Bool :=
  match cs with
  | c :: rest =>
    isAlphaChar c && ((rest.dropWhile isSchemeChar).head? = some ':')
  | [] => false

/-- Model of `urllib.parse.urljoin` (the Python standard library) on the
argument shapes `build_abs_url` produces: the base ends with `/` and its
path holds no empty segments (no `//` beyond the scheme marker), the
reference has no leading `/` and contains no `.`/`..` path segments.  On
that domain `urljoin` returns the reference itself when it carries its own
scheme, and otherwise appends the reference to the base.  (General
`urljoin` — dot-segment removal and empty-segment collapsing — is outside
this model; theorems that rely on it carry hypotheses restricting inputs
to the model's domain.) -/
def urljoin_model (base rel : List Char) : List Char :=
  if hasScheme rel then rel else base ++ rel

/-- The trimming in `build_abs_url` (ebs_downloader.py line 31):
`raw.strip().strip("'").strip('"')` — whitespace, then all surrounding
single quotes, then all surrounding double quotes. -/
def trimRef (cs : List Char) : List Char :=
  pyStripChar '"' (pyStripChar '\x27' (pyStripWs cs))

/-- `build_abs_url` (ebs_downloader.py lines 28-34).  `none` input (or the
falsy empty string) yields `none`; an `http(s)://` reference is returned
as trimmed; anything else is joined to the base, which gets a trailing
slash if it lacks one, after stripping the reference's leading slashes. -/
def build_abs_url (raw : Option (List Char)) (base : List Char) : Option (List Char) :=
  match raw with
  | none => none
  | some r =>
    if r = [] then none
    else
      let r1 := trimRef r
      if ("http://".data.isPrefixOf r1 || "https://".data.isPrefixOf r1) then some r1
      else
        some (urljoin_model
          (if base.getLast? = some '/' then base else base ++ ['/'])
          (r1.dropWhile (fun c => c = '/')))

/-- Single-position matcher of `\.([A-Za-z0-9]{1,5})(?:\?|#|$)` from
`ext_from_url` (ebs_downloader.py line 39): a dot, then the greedy
bounded alphanumeric run, backtracking from length 5 down to 1, each time
requiring end-of-string, `?` or `#` right after. -/
def extFollowOk : List Char → Bool
  | [] => true
  | c :: _ => c = '?' || c = '#'

def extTryLen (tail : List Char) : Nat → Option (List Char)
  | 0 => none
  | Nat.succ k =>
    if (tail.take (k + 1)).all isAlnumChar && (tail.take (k + 1)).length = k + 1 &&
        extFollowOk (tail.drop (k + 1)) then
      some (tail.take (k + 1))
    else extTryLen tail k

def extTryAt (cs : List Char) : Option (List Char) :=
  match cs with
  | '.' :: tail => extTryLen tail 5
  | _ => none

/-- `ext_from_url` (ebs_downloader.py lines 36-40) with the default
`".pdf"` used at both call sites. -/
def ext_from_url (u : Option (List Char)) : List Char :=
  match u with
  | none => ".pdf".data
  | some s =>
    match scanFirst extTryAt s with
    | some r => '.' :: r
    | none => ".pdf".data

example : ext_from_url (some ("/a/b/file.pdf".data)) = (".pdf".data) := by decide
example : ext_from_url (some ("/a/b.hwp?x=1".data)) = (".hwp".data) := by decide
example : ext_from_url (some ("/a/b/file".data)) = (".pdf".data) := by decide
example : ext_from_url none = (".pdf".data) := by decide
example : ext_from_url (some ("a.php?b.pdf".data)) = (".php".data) := by decide
example : build_abs_url (some ("/docs/x.pdf".data)) ("https://host/base".data) =
    some ("https://host/base/docs/x.pdf".data) := by decide
example : build_abs_url (some ("https://other/y.pdf".data)) ("https://host/base".data) =
    some ("https://other/y.pdf".data) := by decide
example : build_abs_url none ("https://host/base".data) = none := by decide

/-! ### ebs_downloader.py : list-item extraction -/

/-- Close test after a lazy capture in the onclick-argument pattern: the
same quote character, optional whitespace, then the comma. -/
def argCloseOk (q : Char) : List Char → Bool
  | c :: rest => c = q && (rest.dropWhile pySpace).head? = some ','
  | [] => false

/-- The lazy `(.+?)` capture: grow one character at a time (`.` never
matches a newline), returning the shortest nonempty capture whose
remainder closes with the same quote, optional whitespace and a comma. -/
def lazyCapAux (q : Char) (acc : List Char) : List Char → Option (List Char)
  | [] => none
  | c :: rest =>
    if c = '\n' then none
    else if argCloseOk q rest then some (acc ++ [c])
    else lazyCapAux q (acc ++ [c]) rest

/-- Single-position matcher of the onclick first-argument pattern
(ebs_downloader.py lines 77, 85, 102): an opening parenthesis, optional
whitespace, a quote, the lazy capture, the same quote, optional
whitespace, a comma. -/
def argTryAt (cs : List Char) : Option (List Char) :=
  match cs with
  | '(' :: rest =>
    match rest.dropWhile pySpace with
    | q :: r2 => if q = '\x27' || q = '"' then lazyCapAux q [] r2 else none
    | [] => none
  | _ => none

/-- `re.search` of the onclick first-argument pattern, returning the
captured group. -/
def firstArg (onclick : List Char) : Option (List Char) :=
  scanFirst argTryAt onclick

/-- Model of one `li` card as `parse_list_items` reads it (script/style
subtrees already decomposed away): the text of a `.tit` descendant when
one exists, the card's full joined text, and the onclick attribute values
of its descendant buttons in document order. -/
structure LiNode where
  titleText : Option (List Char)
  rawText : List Char
  onclicks : List (List Char)
  deriving DecidableEq

/-- One extracted record: title plus the optional problem/solution
references. -/
structure RawItem where
  title : List Char
  prob : Option (List Char)
  sol : Option (List Char)
  deriving DecidableEq

/-- Python truthiness of an optional string. -/
def pyTruthy : Option (List Char) → Bool
  | none => false
  | some s => !s.isEmpty

/-- Python `raw.split("  ")[0]` : the text before the first two-space run. -/
def beforeDoubleSpace : List Char → List Char
  | ' ' :: ' ' :: _ => []
  | c :: rest => c :: beforeDoubleSpace rest
  | [] => []

def goPPrefix : List Char := "goDownLoadP(".data

def goHPrefix : List Char := "goDownLoadH(".data

/-- Title extraction for one card (ebs_downloader.py lines 67-73):
the `.tit` text when present, otherwise the text before the first double
space of the card's raw text ("제목미상" when that text is empty), both
sanitized. -/
def liTitle (li : LiNode) : List Char :=
  match li.titleText with
  | some t => sanitize_filename t
  | none =>
    if li.rawText = [] then sanitize_filename ("제목미상".data)
    else sanitize_filename (beforeDoubleSpace li.rawText)

/-- Primary pass, per card (ebs_downloader.py lines 62-89): one candidate
record per problem button; the solution reference comes from the card's
first solution button; the record is kept only if at least one reference
is truthy. -/
def liPrimaryItems (li : LiNode) : List RawItem :=
  (li.onclicks.filter (fun oc => goPPrefix.isPrefixOf oc)).filterMap (fun oc =>
    let prob := firstArg oc
    let sol := (li.onclicks.find? (fun h => goHPrefix.isPrefixOf h)).bind firstArg
    if pyTruthy prob || pyTruthy sol then some ⟨liTitle li, prob, sol⟩ else none)

/-- Fallback pass, per card (ebs_downloader.py lines 91-107): only
title-bearing cards, either-or button lookup, kept only if at least one
reference is truthy. -/
def liFallbackItem (li : LiNode) : Option RawItem :=
  match li.titleText with
  | none => none
  | some t =>
    let prob := (li.onclicks.find? (fun oc => goPPrefix.isPrefixOf oc)).bind firstArg
    let sol := (li.onclicks.find? (fun oc => goHPrefix.isPrefixOf oc)).bind firstArg
    if pyTruthy prob || pyTruthy sol then some ⟨sanitize_filename t, prob, sol⟩ else none

/-- `parse_list_items` (ebs_downloader.py lines 42-109) over the card
models: primary pass per problem button, and the fallback pass exactly
when the primary pass found nothing. -/
def parse_list_items (lis : List LiNode) : List RawItem :=
  let items := (lis.map liPrimaryItems).flatten
  if items.isEmpty then lis.filterMap liFallbackItem else items

/-- Python's `pat in s` substring test. -/
def pyContainsSub (pat : List Char) : List Char → Bool
  | [] => pat.isEmpty
  | c :: cs => pat.isPrefixOf (c :: cs) || pyContainsSub pat cs

/-! ### ebs_downloader.py : main -/

/-- One backend response: the raw body (for the `"<li"` sentinel test)
and its parsed card list. -/
structure Page where
  body : List Char
  lis : List LiNode

/-- The resources of `it` whose URL is truthy, as a singleton-or-empty
attempt list. -/
def truthyList : Option (List Char) → List (List Char)
  | some v => if v.isEmpty then [] else [v]
  | none => []

/-- `prob_url` of one record (ebs_downloader.py line 247):
`build_abs_url(prob_path, base) if prob_path else None`. -/
def recProbUrl (base : List Char) (it : RawItem) : Option (List Char) :=
  match it.prob with
  | some p => if p.isEmpty then none else build_abs_url (some p) base
  | none => none

/-- `sol_url` of one record (ebs_downloader.py line 248). -/
def recSolUrl (base : List Char) (it : RawItem) : Option (List Char) :=
  match it.sol with
  | some s => if s.isEmpty then none else build_abs_url (some s) base
  | none => none

/-- The `try` block of one loop iteration (ebs_downloader.py lines
259-273), as the list of URLs whose download is attempted: the problem
URL first when truthy; if its download raises (`dl` false) the record's
solution is skipped by the exception, otherwise the truthy solution URL
is attempted as well; a solution failure is simply caught. -/
def recAttempts (base : List Char) (dl : List Char → Bool) (it : RawItem) : List (List Char) :=
  match recProbUrl base it with
  | some u =>
    if u.isEmpty then truthyList (recSolUrl base it)
    else if dl u then u :: truthyList (recSolUrl base it)
    else [u]
  | none => truthyList (recSolUrl base it)

/-- The download loop of `main` (ebs_downloader.py lines 243-273),
abstracted over a download oracle `dl` (`false` means `download_file`
raises for that URL).  Returns the URLs for which a download is attempted,
in order.  Exceptions are caught per record, so the loop always continues
with the next record. -/
def downloadStage (base : List Char) (dl : List Char → Bool) : List RawItem → List (List Char)
  | [] => []
  | it :: rest => recAttempts base dl it ++ downloadStage base dl rest

/-- Outcome of one run of `main`'s core: how many catalogue fetches were
made, the parsed items, and the attempted download URLs in order. -/
structure RunOutcome where
  fetches : Nat
  items : List RawItem
  attempts : List (List Char)
  deriving DecidableEq

/-- The retrieval/parse/download core of `main` (ebs_downloader.py lines
209-275), abstracted over the backend: `pages n` is the response of the
POST for page number `n`, and `dl` the download oracle.  `main` issues
exactly one POST (at the configured page index, default 1); when the body
lacks the `"<li"` sentinel, or parsing yields no items, the run returns
early with no downloads; otherwise every parsed record is processed.
There is no pagination loop in the source. -/
def mainRun (pages : Nat → Page) (base : List Char) (dl : List Char → Bool) : RunOutcome :=
  let p := pages 1
  if !(pyContainsSub ("<li".data) p.body) then ⟨1, [], []⟩
  else
    let items := parse_list_items p.lis
    if items.isEmpty then ⟨1, items, []⟩
    else ⟨1, items, downloadStage base dl items⟩

example : firstArg ("goDownLoadP(\x27/docs/p1.pdf\x27, \x271\x27)".data) =
    some ("/docs/p1.pdf".data) := by decide
example : firstArg ("goDownLoadP(\"/docs/p1.pdf\", \"1\")".data) =
    some ("/docs/p1.pdf".data) := by decide
example : beforeDoubleSpace ("ab  cd".data) = ("ab".data) := by decide

/-! ### Claim theorems -/

/-- Claim C6: for every string, `sanitize_filename` replaces each character
of the class backslash, slash, colon, star, question mark, double quote,
angle brackets, pipe with a single space, then collapses every whitespace
run to one space and trims the ends — in closed form, it returns exactly
the maximal clean runs of the input joined by single spaces — and
sanitize("a/b:c*d") = "a b c d". -/
theorem sanitize_filename_matches_spec :
    (∀ s : List Char, sanitize_filename s = joinSpace (wordsBy isSepChar s)) ∧
    sanitize_filename ("a/b:c*d".data) = ("a b c d".data) :=
  ⟨sanitize_eq_join, by decide⟩

/-- Claim C10: filename sanitization is idempotent — sanitizing an already
sanitized string changes nothing. -/
theorem sanitize_filename_idempotent :
    ∀ s : List Char, sanitize_filename (sanitize_filename s) = sanitize_filename s := by
  intro s
  rw [sanitize_eq_join s, sanitize_eq_join (joinSpace (wordsBy isSepChar s)),
    wordsBy_joinSpace _ (wordsBy_sound isSepChar s.length s (Nat.le_refl _))]

theorem pyTruthy_ne_none (x : Option (List Char)) (h : pyTruthy x = true) : x ≠ none := by
  cases x with
  | none => simp [pyTruthy] at h
  | some s => simp

/-- Claim C9: every record the extractor returns carries at least one
non-null reference; candidates with neither reference are dropped, in the
primary pass and in the zero-records fallback pass alike. -/
theorem parse_list_items_ref_invariant :
    ∀ (lis : List LiNode) (it : RawItem), it ∈ parse_list_items lis →
      it.prob ≠ none ∨ it.sol ≠ none := by
  intro lis it hmem
  simp only [parse_list_items] at hmem
  split at hmem
  · rcases List.mem_filterMap.mp hmem with ⟨li, _, hli⟩
    simp only [liFallbackItem] at hli
    cases hti : li.titleText with
    | none => rw [hti] at hli; exact absurd hli (by simp)
    | some t =>
      rw [hti] at hli
      simp only at hli
      split at hli
      case isTrue hg =>
        have hit := Option.some.inj hli
        rcases Bool.or_eq_true_iff.mp hg with h | h
        · left
          rw [← hit]
          exact pyTruthy_ne_none _ h
        · right
          rw [← hit]
          exact pyTruthy_ne_none _ h
      case isFalse hg => exact absurd hli (by simp)
  · rcases List.mem_flatten.mp hmem with ⟨l, hl, hitl⟩
    rcases List.mem_map.mp hl with ⟨li, _, hlieq⟩
    rw [← hlieq] at hitl
    rcases List.mem_filterMap.mp hitl with ⟨oc, _, hoc⟩
    simp only at hoc
    split at hoc
    case isTrue hg =>
      have hit := Option.some.inj hoc
      rcases Bool.or_eq_true_iff.mp hg with h | h
      · left
        rw [← hit]
        exact pyTruthy_ne_none _ h
      · right
        rw [← hit]
        exact pyTruthy_ne_none _ h
    case isFalse hg => exact absurd hoc (by simp)

/-- A concrete card with both a problem and a solution button. -/
def liEx : LiNode :=
  ⟨some ("2023년 수능 물리학Ⅰ".data), [],
   [("goDownLoadP(\x27/docs/p1.pdf\x27, \x271\x27)".data),
    ("goDownLoadH(\x27/docs/s1.pdf\x27, \x271\x27)".data)]⟩

/-- The record the extractor produces from `liEx`. -/
def itEx : RawItem :=
  ⟨("2023년 수능 물리학Ⅰ".data), some ("/docs/p1.pdf".data), some ("/docs/s1.pdf".data)⟩

/-- Witness for claim C9 at a concrete card. -/
theorem parse_list_items_ref_invariant_witness :
    itEx.prob ≠ none ∨ itEx.sol ≠ none :=
  parse_list_items_ref_invariant [liEx] itEx (by decide)

/-- Two concrete records, each with both references. -/
def itemA : RawItem := ⟨("A".data), some ("/p/a1.pdf".data), some ("/s/a2.pdf".data)⟩

def itemB : RawItem := ⟨("B".data), some ("/p/b1.pdf".data), some ("/s/b2.pdf".data)⟩

def baseEx : List Char := "https://host/base".data

/-- Download oracle that raises exactly on the first record's problem URL. -/
def dlFailP1 (u : List Char) : Bool := !(u = ("https://host/base/p/a1.pdf".data))

/-- Claim C2 counterexample: with two records each carrying both resources
and a download failure on the problem resource of the first record, the
solution resource of that same record is never attempted (the shared
`try` block skips it), although both resources of the second record are
attempted.  So a failure on one resource of R can prevent the other
resource of R. -/
theorem download_isolation_counterexample :
    downloadStage baseEx dlFailP1 [itemA, itemB] =
      [("https://host/base/p/a1.pdf".data), ("https://host/base/p/b1.pdf".data),
       ("https://host/base/s/b2.pdf".data)] ∧
    ¬ (("https://host/base/s/a2.pdf".data) ∈ downloadStage baseEx dlFailP1 [itemA, itemB]) := by
  decide

/-- Claim C2 amended: download failures are caught per record, not per
resource.  The attempt list of the stage is the concatenation of
independent per-record attempt lists, so a failure in one record never
affects the resources of subsequent (or preceding) records; within one
record, the problem resource is attempted first and a failure there
skips the record's solution resource, while a solution failure skips
nothing further. -/
theorem downloadStage_per_record :
    (∀ (base : List Char) (dl : List Char → Bool) (its its' : List RawItem),
      downloadStage base dl (its ++ its') =
        downloadStage base dl its ++ downloadStage base dl its') ∧
    (∀ (base : List Char) (dl : List Char → Bool) (its : List RawItem),
      downloadStage base dl its = (its.map (recAttempts base dl)).flatten) ∧
    (∀ (base : List Char) (dl : List Char → Bool) (it : RawItem) (u : List Char),
      recProbUrl base it = some u → u.isEmpty = false → dl u = false →
      recAttempts base dl it = [u]) ∧
    (∀ (base : List Char) (dl : List Char → Bool) (it : RawItem) (u : List Char),
      recProbUrl base it = some u → u.isEmpty = false → dl u = true →
      recAttempts base dl it = u :: truthyList (recSolUrl base it)) := by
  refine ⟨?_, ?_, ?_, ?_⟩
  · intro base dl its its'
    induction its with
    | nil => rfl
    | cons it rest ih =>
      simp only [List.cons_append, downloadStage, List.append_eq, ih, List.append_assoc]
  · intro base dl its
    induction its with
    | nil => rfl
    | cons it rest ih =>
      simp only [downloadStage, List.map_cons, List.flatten_cons, ih]
  · intro base dl it u hu hne hdl
    rw [recAttempts, hu]
    simp only [hne, Bool.false_eq_true, if_false, hdl]
  · intro base dl it u hu hne hdl
    rw [recAttempts, hu]
    simp only [hne, Bool.false_eq_true, if_false, hdl, if_true]

/-- Witness for claim C2's amended statement at the counterexample data. -/
theorem downloadStage_per_record_witness :
    downloadStage baseEx dlFailP1 ([itemA] ++ [itemB]) =
      downloadStage baseEx dlFailP1 [itemA] ++ downloadStage baseEx dlFailP1 [itemB] ∧
    recAttempts baseEx dlFailP1 itemA = [("https://host/base/p/a1.pdf".data)] ∧
    recAttempts baseEx (fun _ => true) itemA =
      ("https://host/base/p/a1.pdf".data) :: truthyList (recSolUrl baseEx itemA) :=
  ⟨downloadStage_per_record.1 baseEx dlFailP1 [itemA] [itemB],
   downloadStage_per_record.2.2.1 baseEx dlFailP1 itemA ("https://host/base/p/a1.pdf".data)
     (by decide) (by decide) (by decide),
   downloadStage_per_record.2.2.2 baseEx (fun _ => true) itemA
     ("https://host/base/p/a1.pdf".data) (by decide) (by decide) (by decide)⟩

/-- Three scripted non-empty pages and a fourth lacking the list marker. -/
def liP1 : LiNode :=
  ⟨some ("P1".data), [], [("goDownLoadP(\x27/p/1.pdf\x27, \x271\x27)".data)]⟩

def liP2 : LiNode :=
  ⟨some ("P2".data), [], [("goDownLoadP(\x27/p/2.pdf\x27, \x271\x27)".data)]⟩

def liP3 : LiNode :=
  ⟨some ("P3".data), [], [("goDownLoadP(\x27/p/3.pdf\x27, \x271\x27)".data)]⟩

def listBody : List Char := "<ul><li>x</li></ul>".data

def scriptEx : Nat → Page
  | 1 => ⟨listBody, [liP1]⟩
  | 2 => ⟨listBody, [liP2]⟩
  | 3 => ⟨listBody, [liP3]⟩
  | _ => ⟨"<div>no list</div>".data, []⟩

def dlAll : List Char → Bool := fun _ => true

/-- Claim C1 counterexample: against the scripted sequence of three
non-empty pages followed by one page lacking the list marker, the run
performs exactly one fetch and collects only the first page's records —
not four fetches and the union of the first three pages' records, as the
claim states.  There is no pagination loop in `main`. -/
theorem catalog_pagination_counterexample :
    (mainRun scriptEx baseEx dlAll).fetches = 1 ∧
    (mainRun scriptEx baseEx dlAll).items = parse_list_items [liP1] ∧
    parse_list_items [liP2] ≠ [] ∧
    ¬ ((mainRun scriptEx baseEx dlAll).fetches = 4 ∧
       (mainRun scriptEx baseEx dlAll).items =
         parse_list_items [liP1] ++ parse_list_items [liP2] ++ parse_list_items [liP3]) := by
  refine ⟨by decide, by decide, by decide, ?_⟩
  intro h
  exact absurd h.1 (by decide)

/-- Claim C1 amended: the catalogue retrieval performs exactly one fetch,
at the fixed page index: it yields no records (and no downloads) when the
response body lacks the `"<li"` sentinel or when parsing yields zero
items, and otherwise exactly the records of that single fetched page,
whose downloads are then attempted.  No further pages are requested. -/
theorem mainRun_single_fetch :
    ∀ (pages : Nat → Page) (base : List Char) (dl : List Char → Bool),
      mainRun pages base dl =
        ⟨1,
         if pyContainsSub ("<li".data) (pages 1).body then parse_list_items (pages 1).lis
         else [],
         if pyContainsSub ("<li".data) (pages 1).body then
           downloadStage base dl (parse_list_items (pages 1).lis)
         else []⟩ := by
  intro pages base dl
  rw [mainRun]
  by_cases h : pyContainsSub ("<li".data) (pages 1).body = true
  · simp only [h, Bool.not_true, Bool.false_eq_true, if_false, if_true]
    by_cases hemp : (parse_list_items (pages 1).lis).isEmpty = true
    · have hnil : parse_list_items (pages 1).lis = [] := by
        cases hp : parse_list_items (pages 1).lis with
        | nil => rfl
        | cons a l => rw [hp] at hemp; simp at hemp
      simp [hemp, hnil, downloadStage]
    · simp [hemp]
  · have h' : pyContainsSub ("<li".data) (pages 1).body = false := by simpa using h
    simp [h']

/-- All successes of a single-position matcher, in start-position order
(the spec-side counterpart of `scanFirst`; its head is the leftmost match
and its last element the rightmost). -/
def collectMatches {α : Type} (m : List Char → Option α) : List Char → List α
  | [] => (m []).toList
  | c :: cs =>
    match m (c :: cs) with
    | some r => r :: collectMatches m cs
    | none => collectMatches m cs

theorem scanFirst_eq_collect_head {α : Type} (m : List Char → Option α) :
    ∀ cs : List Char, scanFirst m cs = (collectMatches m cs).head? := by
  intro cs
  induction cs with
  | nil =>
    simp only [scanFirst, collectMatches]
    cases m [] <;> rfl
  | cons c cs ih =>
    simp only [scanFirst, collectMatches]
    cases m (c :: cs) with
    | some r => rfl
    | none => exact ih

/-- Claim C3 counterexample: the code's month fallback is "12", not the
claimed sentinel "00" — shown on a name matching none of the claimed
month patterns — and a digit-dot-digit date with the executed-marker
phrase ("2023.3.15 시행"), which the claim's second pattern reads as month
03, still yields "12" because the code's only pattern is digits before
월. -/
theorem ncMonth_counterexample :
    ncMonth ("수능".data) = ("12".data) ∧
    ("12".data) ≠ ("00".data) ∧
    ncMonth ("2023.3.15 시행".data) = ("12".data) ∧
    ("12".data) ≠ ("03".data) := by
  decide

/-- Claim C3 amended: month normalization tries the single pattern — a
one- or two-digit run immediately followed by 월 — with the leftmost
match winning (the first position whose suffix matches); the capture is
zero-padded to two digits; the fallback when the pattern is absent is
"12"; every successful capture is a nonempty all-digit run of length at
most two sitting immediately before 월 at the match position. -/
theorem ncMonth_amended :
    (∀ name : List Char,
      ncMonth name =
        match name.tails.findSome? monthTryAt with
        | some ds => zfill2 ds
        | none => "12".data) ∧
    (∀ (cs ds : List Char), monthTryAt cs = some ds →
      ds ≠ [] ∧ ds.length ≤ 2 ∧ ds.all isDigitChar ∧
        (ds ++ ['월']).isPrefixOf cs) := by
  constructor
  · intro name
    rw [ncMonth, scanFirst_eq_tails]
  · intro cs ds h
    cases cs with
    | nil => exact absurd h (by simp [monthTryAt])
    | cons d1 rest =>
      simp only [monthTryAt] at h
      by_cases h1 : isDigitChar d1 = true
      · rw [if_pos h1] at h
        cases rest with
        | nil => exact absurd h (by simp)
        | cons d2 r2 =>
          simp only at h
          by_cases h2 : (isDigitChar d2 && r2.head? = some '월') = true
          · rw [if_pos h2] at h
            have hds := Option.some.inj h
            rcases Bool.and_eq_true_iff.mp h2 with ⟨h2d, h2m⟩
            cases r2 with
            | nil => simp at h2m
            | cons e r3 =>
              have he : e = '월' := by simpa using of_decide_eq_true h2m
              subst he
              refine ⟨by rw [← hds]; simp, by rw [← hds]; simp, ?_, ?_⟩
              · rw [← hds]
                simp [h1, h2d]
              · rw [← hds, List.isPrefixOf_iff_prefix]
                exact ⟨r3, by simp⟩
          · rw [if_neg h2] at h
            by_cases h3 : (d2 :: r2).head? = some '월'
            · rw [if_pos h3] at h
              have hds := Option.some.inj h
              have he : d2 = '월' := by simpa using h3
              subst he
              refine ⟨by rw [← hds]; simp, by rw [← hds]; simp, ?_, ?_⟩
              · rw [← hds]
                simp [h1]
              · rw [← hds, List.isPrefixOf_iff_prefix]
                exact ⟨r2, by simp⟩
            · rw [if_neg h3] at h
              exact absurd h (by simp)
      · rw [if_neg h1] at h
        exact absurd h (by simp)

/-- Witness for claim C3's amended statement. -/
theorem ncMonth_amended_witness :
    (ncMonth ("2023년 6월 모의평가".data) =
      match ("2023년 6월 모의평가".data).tails.findSome? monthTryAt with
      | some ds => zfill2 ds
      | none => "12".data) ∧
    (['6'] ≠ [] ∧ ([('6' : Char)]).length ≤ 2 ∧ ([('6' : Char)]).all isDigitChar ∧
      (['6'] ++ ['월']).isPrefixOf ("6월 모의평가".data)) :=
  ⟨ncMonth_amended.1 ("2023년 6월 모의평가".data),
   ncMonth_amended.2 ("6월 모의평가".data) ['6'] (by decide)⟩

/-- The claim's reading of the year pattern: some position carries four
digits immediately followed by 년, with no intervening characters. -/
def hasImmediateYear (cs : List Char) : Bool :=
  cs.tails.any (fun t =>
    match t with
    | a :: b :: c :: d :: e :: _ =>
      isDigitChar a && isDigitChar b && isDigitChar c && isDigitChar d && e = '년'
    | _ => false)

/-- Claim C4 counterexample: the code's pattern allows whitespace between
the digits and 년.  The title "1111 년" contains no four-digit run
immediately followed by 년, yet extraction returns "1111" instead of the
sentinel 기타; and in "1111 년 2222년" the first (and only) immediate
four-digit-then-년 run is 2222, yet extraction returns "1111". -/
theorem extract_year_counterexample :
    hasImmediateYear ("1111 년".data) = false ∧
    extract_year ("1111 년".data) = ("1111".data) ∧
    ("1111".data) ≠ ("기타".data) ∧
    hasImmediateYear ("1111 년 2222년".data) = true ∧
    extract_year ("1111 년 2222년".data) = ("1111".data) ∧
    ("1111".data) ≠ ("2222".data) := by
  decide

/-- Claim C4 amended: year extraction returns the first (leftmost) match
of the pattern four digits, optionally separated by whitespace from the
marker 년, and the sentinel 기타 when that pattern is absent; every
successful capture is a four-digit run followed in the title, possibly
after whitespace, by 년. -/
theorem extract_year_amended :
    (∀ title : List Char,
      extract_year title =
        match title.tails.findSome? yearTryAt with
        | some y => y
        | none => "기타".data) ∧
    (∀ (cs y : List Char), yearTryAt cs = some y →
      y.length = 4 ∧ y.all isDigitChar ∧
        ∃ ws : List Char, ws.all pySpace ∧ (y ++ ws ++ ['년']).isPrefixOf cs) := by
  constructor
  · intro title
    rw [extract_year, scanFirst_eq_tails]
  · intro cs y h
    simp only [yearTryAt] at h
    by_cases hc : ((cs.take 4).length = 4 && (cs.take 4).all isDigitChar) = true
    · rw [if_pos hc] at h
      rcases Bool.and_eq_true_iff.mp hc with ⟨hlen, hdig⟩
      cases hd : (cs.drop 4).dropWhile pySpace with
      | nil => rw [hd] at h; exact absurd h (by simp)
      | cons c t =>
        rw [hd] at h
        simp only at h
        by_cases hcy : c = '년'
        · rw [if_pos hcy] at h
          have hy := Option.some.inj h
          subst hcy
          refine ⟨?_, ?_, (cs.drop 4).takeWhile pySpace, ?_, ?_⟩
          · rw [← hy]; exact of_decide_eq_true hlen
          · rw [← hy]; exact hdig
          · rw [List.all_eq_true]
            intro d hdmem
            exact List.mem_takeWhile_imp hdmem
          · rw [← hy, List.isPrefixOf_iff_prefix]
            refine ⟨t, ?_⟩
            have hsplit : cs.drop 4 = (cs.drop 4).takeWhile pySpace ++ ('년' :: t) := by
              conv_lhs => rw [← List.takeWhile_append_dropWhile (p := pySpace) (l := cs.drop 4)]
              rw [hd]
            calc cs.take 4 ++ (cs.drop 4).takeWhile pySpace ++ ['년'] ++ t
                = cs.take 4 ++ ((cs.drop 4).takeWhile pySpace ++ ('년' :: t)) := by
                  simp [List.append_assoc]
              _ = cs.take 4 ++ cs.drop 4 := by rw [← hsplit]
              _ = cs := List.take_append_drop 4 cs
        · rw [if_neg hcy] at h
          exact absurd h (by simp)
    · rw [if_neg hc] at h
      exact absurd h (by simp)

/-- Witness for claim C4's amended statement. -/
theorem extract_year_amended_witness :
    (extract_year ("2023년 수능".data) =
      match ("2023년 수능".data).tails.findSome? yearTryAt with
      | some y => y
      | none => "기타".data) ∧
    (("2023".data).length = 4 ∧ ("2023".data).all isDigitChar ∧
      ∃ ws : List Char, ws.all pySpace ∧
        (("2023".data) ++ ws ++ ['년']).isPrefixOf ("2023년 수능".data)) :=
  ⟨extract_year_amended.1 ("2023년 수능".data),
   extract_year_amended.2 ("2023년 수능".data) ("2023".data) (by decide)⟩

/-- Claim C8 counterexample: in "a.php?b.pdf" the last dot-delimited
alphanumeric run of length 1-5 immediately preceding end/query/fragment is
"pdf", but the code returns the first such run, ".php" — `re.search`
takes the leftmost match, not the last. -/
theorem ext_from_url_counterexample :
    (collectMatches extTryAt ("a.php?b.pdf".data)).getLast? = some ("pdf".data) ∧
    ext_from_url (some ("a.php?b.pdf".data)) = (".php".data) ∧
    (".php".data) ≠ ('.' :: ("pdf".data)) := by
  decide

theorem extTryLen_sound : ∀ (tail : List Char) (k : Nat) (r : List Char),
    extTryLen tail k = some r → r ≠ [] ∧ r.length ≤ k ∧ r.all isAlnumChar := by
  intro tail k
  induction k with
  | zero => intro r h; exact absurd h (by simp [extTryLen])
  | succ k ih =>
    intro r h
    simp only [extTryLen] at h
    split at h
    case isTrue hcond =>
      have hr := Option.some.inj h
      rcases Bool.and_eq_true_iff.mp hcond with ⟨h12, _⟩
      rcases Bool.and_eq_true_iff.mp h12 with ⟨hall, hlen⟩
      have hlen' : (tail.take (k + 1)).length = k + 1 := of_decide_eq_true hlen
      refine ⟨?_, ?_, ?_⟩
      · rw [← hr]
        intro hnil
        rw [hnil] at hlen'
        simp at hlen'
      · rw [← hr, hlen']
      · rw [← hr]; exact hall
    case isFalse =>
      obtain ⟨h1, h2, h3⟩ := ih r h
      exact ⟨h1, Nat.le_trans h2 (Nat.le_succ k), h3⟩

/-- Claim C8 amended: extension inference returns, dot-prefixed, the FIRST
(leftmost) dot-delimited alphanumeric run of length 1-5 immediately
preceding end-of-string, a query marker or a fragment marker, and the
default ".pdf" when the URL is null or no such run exists; every matched
run is a nonempty alphanumeric run of length at most five. -/
theorem ext_from_url_amended :
    (∀ u : Option (List Char),
      ext_from_url u =
        match u with
        | none => ".pdf".data
        | some s =>
          match (collectMatches extTryAt s).head? with
          | some r => '.' :: r
          | none => ".pdf".data) ∧
    (∀ (cs r : List Char), extTryAt cs = some r →
      r ≠ [] ∧ r.length ≤ 5 ∧ r.all isAlnumChar) := by
  constructor
  · intro u
    cases u with
    | none => rfl
    | some s => rw [ext_from_url, scanFirst_eq_collect_head]
  · intro cs r h
    cases cs with
    | nil => exact absurd h (by simp [extTryAt])
    | cons c tail =>
      simp only [extTryAt] at h
      split at h
      · exact extTryLen_sound _ 5 r h
      · exact absurd h (by simp)

/-- Witness for claim C8's amended statement. -/
theorem ext_from_url_amended_witness :
    (ext_from_url (some ("/a/b/file.pdf?x=1".data)) =
      match (collectMatches extTryAt ("/a/b/file.pdf?x=1".data)).head? with
      | some r => '.' :: r
      | none => ".pdf".data) ∧
    (("hwp".data) ≠ [] ∧ ("hwp".data).length ≤ 5 ∧ ("hwp".data).all isAlnumChar) :=
  ⟨ext_from_url_amended.1 (some ("/a/b/file.pdf?x=1".data)),
   ext_from_url_amended.2 (".hwp#frag".data) ("hwp".data) (by decide)⟩

/-- Whether the base URL ends with two path separators (a degenerate base
the join contract cannot normalise). -/
def endsWithTwoSlashes (base : List Char) : Bool :=
  match base.reverse with
  | c1 :: c2 :: _ => c1 = '/' && c2 = '/'
  | _ => false

/-- Whether the reference contains a `.` or `..` path segment (inputs on
which real `urljoin` performs dot-segment removal, outside the model of
`urljoin_model`). -/
def hasDotSegment (rel : List Char) : Bool :=
  (wordsBy (fun c => c = '/') rel).any (fun s => s = ['.'] || s = ['.', '.'])

/-- The base with a leading `http(s)://` scheme marker removed, to state
where its path may not contain empty (`//`) segments. -/
def stripHttpScheme (base : List Char) : List Char :=
  if "https://".data.isPrefixOf base then base.drop 8
  else if "http://".data.isPrefixOf base then base.drop 7
  else base

/-- The claim's contract for URL resolution, from the spec's words: null
(or the falsy empty reference) propagates; after trimming surrounding
whitespace and quotes, an `http(s)://` reference is returned unchanged;
any other reference is joined to the base with exactly one path separator
at the seam — the base's trailing separators and the reference's leading
separators collapse into the single seam separator. -/
def resolveSpec (raw : Option (List Char)) (base : List Char) : Option (List Char) :=
  match raw with
  | none => none
  | some r =>
    if r = [] then none
    else
      let r1 := trimRef r
      if ("http://".data.isPrefixOf r1 || "https://".data.isPrefixOf r1) then some r1
      else
        some ((base.reverse.dropWhile (fun c => c = '/')).reverse ++
          '/' :: r1.dropWhile (fun c => c = '/'))

/-- Seam normalisation: for a base not ending in a doubled separator,
appending one separator when the base lacks one is the same as stripping
all trailing separators and appending exactly one. -/
theorem base_seam (base : List Char) (h2 : endsWithTwoSlashes base = false) :
    (if base.getLast? = some '/' then base else base ++ ['/']) =
      (base.reverse.dropWhile (fun c => c = '/')).reverse ++ ['/'] := by
  have hgl : base.getLast? = base.reverse.head? := (List.head?_reverse base).symm
  cases hR : base.reverse with
  | nil =>
    have hbase : base = [] := by
      have := congrArg List.reverse hR
      simpa using this
    subst hbase
    simp
  | cons c R' =>
    have hbase : base = (c :: R').reverse := by
      have := congrArg List.reverse hR
      simpa using this
    by_cases hc : c = '/'
    · subst hc
      have hson : base.getLast? = some '/' := by rw [hgl, hR]; rfl
      rw [if_pos hson]
      have hR' : R'.dropWhile (fun x => x = '/') = R' := by
        apply dropWhile_eq_self_of_head
        intro d hd
        cases hRc : R' with
        | nil => rw [hRc] at hd; simp at hd
        | cons e R'' =>
          rw [hRc] at hd
          have he : e = d := by simpa using hd
          rw [endsWithTwoSlashes, hR, hRc] at h2
          simp only at h2
          rcases Bool.and_eq_false_iff.mp h2 with h | h
          · simp at h
          · rw [← he]
            simpa using h
      rw [List.dropWhile_cons]
      have hdec : (decide (('/' : Char) = '/')) = true := by decide
      rw [hdec, if_pos rfl, hR', hbase]
      simp
    · have hson : ¬ base.getLast? = some '/' := by
        rw [hgl, hR]
        simp [hc]
      have hdec : (decide (c = '/')) = false := by simpa using hc
      rw [if_neg hson, List.dropWhile_cons, hdec]
      simp only [Bool.false_eq_true, if_false]
      rw [hbase]

/-- An `http(s)://` reference carries a scheme even after leading-slash
stripping. -/
theorem hasScheme_of_http (r1 : List Char)
    (h : ("http://".data.isPrefixOf r1 || "https://".data.isPrefixOf r1) = true) :
    hasScheme (r1.dropWhile (fun c => c = '/')) = true := by
  rcases Bool.or_eq_true_iff.mp h with hp | hp
  · obtain ⟨t, ht⟩ := List.isPrefixOf_iff_prefix.mp hp
    rw [← ht]
    rfl
  · obtain ⟨t, ht⟩ := List.isPrefixOf_iff_prefix.mp hp
    rw [← ht]
    rfl

/-- Claim C7: URL resolution returns null for a null (or empty, hence
falsy) reference; otherwise, after trimming surrounding whitespace and
quote characters, an `http(s)://` reference is returned unchanged and any
other reference is joined to the base URL with exactly one path separator
at the seam and no leading-separator duplication — for every base whose
path carries no doubled separator (trailing or interior) and every
reference that either is `http(s)://`-absolute or carries neither its own
scheme nor `.`/`..` segments (the shapes on which the `urljoin` model is
exact). -/
theorem build_abs_url_resolves :
    ∀ (raw : Option (List Char)) (base : List Char),
      endsWithTwoSlashes base = false →
      pyContainsSub ('/' :: '/' :: []) (stripHttpScheme base) = false →
      (∀ r : List Char, raw = some r → r ≠ [] →
        ("http://".data.isPrefixOf (trimRef r) ||
          "https://".data.isPrefixOf (trimRef r)) = true ∨
        (hasScheme ((trimRef r).dropWhile (fun c => c = '/')) = false ∧
         hasDotSegment ((trimRef r).dropWhile (fun c => c = '/')) = false)) →
      build_abs_url raw base = resolveSpec raw base := by
  intro raw base h2 _hclean hdom
  cases raw with
  | none => rfl
  | some r =>
    by_cases hre : r = []
    · simp [build_abs_url, resolveSpec, hre]
    · rcases hdom r rfl hre with habs | ⟨hns, _⟩
      · simp only [build_abs_url, resolveSpec, hre, if_neg hre, habs, if_true]
      · have habs' : ("http://".data.isPrefixOf (trimRef r) ||
            "https://".data.isPrefixOf (trimRef r)) = false := by
          by_contra hcon
          have : ("http://".data.isPrefixOf (trimRef r) ||
              "https://".data.isPrefixOf (trimRef r)) = true := by
            revert hcon
            cases ("http://".data.isPrefixOf (trimRef r) ||
              "https://".data.isPrefixOf (trimRef r)) <;> simp
          rw [hasScheme_of_http (trimRef r) this] at hns
          exact absurd hns (by simp)
        simp only [build_abs_url, resolveSpec, if_neg hre, habs', Bool.false_eq_true,
          if_false, urljoin_model, hns, Option.some.injEq]
        rw [base_seam base h2]
        simp

/-- Witness for claim C7 at the claim's two example inputs. -/
theorem build_abs_url_resolves_witness :
    build_abs_url (some ("/docs/x.pdf".data)) ("https://host/base".data) =
      resolveSpec (some ("/docs/x.pdf".data)) ("https://host/base".data) ∧
    build_abs_url (some ("https://other/y.pdf".data)) ("https://host/base".data) =
      resolveSpec (some ("https://other/y.pdf".data)) ("https://host/base".data) ∧
    resolveSpec (some ("/docs/x.pdf".data)) ("https://host/base".data) =
      some ("https://host/base/docs/x.pdf".data) ∧
    resolveSpec (some ("https://other/y.pdf".data)) ("https://host/base".data) =
      some ("https://other/y.pdf".data) ∧
    build_abs_url none ("https://host/base".data) = none :=
  ⟨build_abs_url_resolves (some ("/docs/x.pdf".data)) ("https://host/base".data)
     (by decide) (by decide)
     (fun r hr hne => by
       injection hr with h
       subst h
       right
       exact ⟨by decide, by decide⟩),
   build_abs_url_resolves (some ("https://other/y.pdf".data)) ("https://host/base".data)
     (by decide) (by decide)
     (fun r hr hne => by
       injection hr with h
       subst h
       left
       decide),
   by decide, by decide, by decide⟩

/-- The last whitespace-delimited token, computed from the reversed
string: drop the trailing whitespace, then take (reversed) the trailing
run of non-whitespace characters. -/
def lastTokenRev (cs : List Char) : Option (List Char) :=
  if cs.reverse.dropWhile pySpace = [] then none
  else some (((cs.reverse.dropWhile pySpace).takeWhile (fun c => !pySpace c)).reverse)

theorem takeWhile_append_of_not_all (q : Char → Bool) :
    ∀ (A B : List Char), ¬ A.all q → (A ++ B).takeWhile q = A.takeWhile q := by
  intro A B h
  induction A with
  | nil => exact absurd rfl h
  | cons a A ih =>
    by_cases ha : q a = true
    · have hA : ¬ A.all q := by
        intro hcon
        exact h (by simp [List.all_cons, ha, hcon])
      simp [List.takeWhile_cons, ha, ih hA]
    · simp [List.takeWhile_cons, ha]

theorem takeWhile_append_single_notq (q : Char → Bool) (c : Char) (hc : q c = false) :
    ∀ A : List Char, (A ++ [c]).takeWhile q = A.takeWhile q := by
  intro A
  by_cases hA : A.all q = true
  · rw [takeWhile_all_append q A [c] hA, takeWhile_eq_self_of_all q A hA]
    simp [List.takeWhile_cons, hc]
  · exact takeWhile_append_of_not_all q A [c] hA

theorem getLast?_cons_of_ne (w : List Char) (ws : List (List Char)) (h : ws ≠ []) :
    (w :: ws).getLast? = ws.getLast? := by
  cases ws with
  | nil => exact absurd rfl h
  | cons w' ws' => exact List.getLast?_cons_cons

/-- The last word of the whitespace-split equals the reverse-computed last
token. -/
theorem wordsBy_getLast_eq_lastTokenRev :
    ∀ (n : Nat) (cs : List Char), cs.length ≤ n →
      (wordsBy pySpace cs).getLast? = lastTokenRev cs := by
  intro n
  induction n with
  | zero =>
    intro cs hlen
    have : cs = [] := List.length_eq_zero.mp (Nat.le_zero.mp hlen)
    subst this
    rfl
  | succ n ih =>
    intro cs hlen
    cases cs with
    | nil => rfl
    | cons c cs =>
      have hlcs : cs.length ≤ n := Nat.le_of_succ_le_succ hlen
      have hrevc : (c :: cs).reverse = cs.reverse ++ [c] := by simp
      by_cases hc : pySpace c = true
      · rw [wordsBy_cons_sep pySpace c cs hc, ih cs hlcs]
        by_cases hdw : cs.reverse.dropWhile pySpace = []
        · have hall : cs.reverse.all pySpace := all_of_dropWhile_eq_nil pySpace _ hdw
          have hdw2 : (c :: cs).reverse.dropWhile pySpace = [] := by
            rw [hrevc, dropWhile_all_append pySpace _ _ hall]
            simp [List.dropWhile_cons, hc]
          rw [lastTokenRev, lastTokenRev, if_pos hdw, if_pos hdw2]
        · have hdw2 : (c :: cs).reverse.dropWhile pySpace =
              cs.reverse.dropWhile pySpace ++ [c] := by
            rw [hrevc, dropWhile_append_of_ne_nil pySpace _ _ hdw]
          have hdw2ne : (c :: cs).reverse.dropWhile pySpace ≠ [] := by
            rw [hdw2]
            simp
          rw [lastTokenRev, lastTokenRev, if_neg hdw, if_neg hdw2ne, hdw2,
            takeWhile_append_single_notq (fun d => !pySpace d) c (by simp [hc]) _]
      · have hc' : pySpace c = false := by simpa using hc
        rw [wordsBy_cons_word pySpace c cs hc']
        have htw : (cs.takeWhile (fun d => !pySpace d)).all (fun d => !pySpace d) := by
          rw [List.all_eq_true]
          intro d hd
          have := List.mem_takeWhile_imp (p := fun d => !pySpace d) hd
          simpa using this
        have hsplit : cs = cs.takeWhile (fun d => !pySpace d) ++
            cs.dropWhile (fun d => !pySpace d) :=
          (List.takeWhile_append_dropWhile (p := fun d => !pySpace d) (l := cs)).symm
        have hassoc : (c :: cs).reverse =
            (cs.dropWhile (fun d => !pySpace d)).reverse ++
              ((cs.takeWhile (fun d => !pySpace d)).reverse ++ [c]) := by
          rw [hrevc]
          conv_lhs => rw [hsplit]
          rw [List.reverse_append, List.append_assoc]
        by_cases hwr : wordsBy pySpace (cs.dropWhile (fun d => !pySpace d)) = []
        · have hall : (cs.dropWhile (fun d => !pySpace d)).all pySpace :=
            (wordsBy_eq_nil_iff pySpace _).mp hwr
          have hallrev : (cs.dropWhile (fun d => !pySpace d)).reverse.all pySpace := by
            rw [List.all_reverse]
            exact hall
          have hY : ((cs.takeWhile (fun d => !pySpace d)).reverse ++ [c]).all
              (fun d => !pySpace d) := by
            rw [List.all_append, List.all_reverse]
            simp [htw, hc']
          have hdw2 : (c :: cs).reverse.dropWhile pySpace =
              (cs.takeWhile (fun d => !pySpace d)).reverse ++ [c] := by
            rw [hassoc, dropWhile_all_append pySpace _ _ hallrev,
              dropWhile_eq_self_of_all pySpace _ hY]
          have hdw2ne : (c :: cs).reverse.dropWhile pySpace ≠ [] := by
            rw [hdw2]
            simp
          rw [hwr, lastTokenRev, if_neg hdw2ne, hdw2,
            takeWhile_eq_self_of_all _ _ hY]
          simp
        · have hrne : cs.dropWhile (fun d => !pySpace d) ≠ [] := by
            intro hcon
            rw [hcon] at hwr
            exact hwr rfl
          have hnall : ¬ (cs.dropWhile (fun d => !pySpace d)).all pySpace := by
            intro hcon
            exact hwr ((wordsBy_eq_nil_iff pySpace _).mpr hcon)
          have hdwne : (cs.dropWhile (fun d => !pySpace d)).reverse.dropWhile pySpace ≠ [] := by
            intro hcon
            have := all_of_dropWhile_eq_nil pySpace _ hcon
            rw [List.all_reverse] at this
            exact hnall this
          have hlr : (cs.dropWhile (fun d => !pySpace d)).length ≤ n :=
            Nat.le_trans (length_dropWhile_le _ _) hlcs
          rw [getLast?_cons_of_ne _ _ hwr, ih _ hlr]
          -- right side: reduce lastTokenRev (c :: cs) to lastTokenRev rest
          have hdw2 : (c :: cs).reverse.dropWhile pySpace =
              (cs.dropWhile (fun d => !pySpace d)).reverse.dropWhile pySpace ++
                ((cs.takeWhile (fun d => !pySpace d)).reverse ++ [c]) := by
            rw [hassoc, dropWhile_append_of_ne_nil pySpace _ _ hdwne]
          have hdw2ne : (c :: cs).reverse.dropWhile pySpace ≠ [] := by
            rw [hdw2]
            intro hcon
            exact hdwne (by
              rcases List.append_eq_nil.mp hcon with ⟨h1, _⟩
              exact h1)
          -- the kept suffix is not all clean: its last element is the
          -- whitespace character heading the dropWhile remainder
          cases hrest : cs.dropWhile (fun d => !pySpace d) with
          | nil => exact absurd hrest hrne
          | cons x rest' =>
            have hx : pySpace x = true := by
              have := dropWhile_head_false (fun d => !pySpace d) cs x rest' hrest
              simpa using this
            have hxlast : ((x :: rest').reverse.dropWhile pySpace).getLast? = some x := by
              have hgl : (x :: rest').reverse.getLast? = some x := by
                rw [List.getLast?_reverse]
                rfl
              conv_rhs => rw [← hgl]
              conv_rhs =>
                rw [show (x :: rest').reverse =
                  (x :: rest').reverse.takeWhile pySpace ++
                    (x :: rest').reverse.dropWhile pySpace from
                  (List.takeWhile_append_dropWhile (p := pySpace)
                    (l := (x :: rest').reverse)).symm]
              rw [List.getLast?_append_of_ne_nil _ (by rw [← hrest]; exact hdwne)]
          -- assemble
            have hnallq : ¬ ((x :: rest').reverse.dropWhile pySpace).all
                (fun d => !pySpace d) := by
              intro hcon
              have hxmem : x ∈ (x :: rest').reverse.dropWhile pySpace :=
                List.mem_of_mem_getLast? hxlast
              rw [List.all_eq_true] at hcon
              have := hcon x hxmem
              rw [hx] at this
              simp at this
            rw [lastTokenRev, lastTokenRev, if_neg hdw2ne,
              if_neg (by rw [← hrest] at *; exact hdwne), hdw2, hrest,
              takeWhile_append_of_not_all _ _ _ hnallq]

/-- Claim C5 counterexample: no code path implements the claimed
normalization — ebs_downloader's subject extraction returns the last
token unmapped (물리학Ⅰ stays 물리학Ⅰ, not 물리1), while name_changer's
subject matcher finds no subject at all in the bare title 화학, which the
claim expects to pass through unchanged. -/
theorem subject_normalize_counterexample :
    extract_subject ("물리학Ⅰ".data) = ("물리학Ⅰ".data) ∧
    ("물리학Ⅰ".data) ≠ ("물리1".data) ∧
    ncSubject ("화학".data) = none := by
  decide

/-- Claim C5 amended: ebs_downloader's subject extraction returns the last
whitespace-delimited token of the NBSP-normalized, stripped title (과목
when no token exists) with no numeral mapping; name_changer separately
searches the file name for one of eight exact subject strings (물리학,
화학, 생명과학, 지구과학, each wearing Ⅰ or Ⅱ) and maps the first
occurrence through a fixed table, so 물리학Ⅰ becomes 물리1 and 생명과학Ⅱ
becomes 생명과학2; a name containing none of the eight (such as bare
화학) yields no subject and is skipped, and ASCII Roman numerals are not
recognized. -/
theorem subject_handling_amended :
    (∀ t : List Char,
      extract_subject t =
        match lastTokenRev (pyStripWs (t.map (fun c => if c = '\xa0' then ' ' else c))) with
        | some w => w
        | none => "과목".data) ∧
    ncSubject ("물리학Ⅰ".data) = some ("물리1".data) ∧
    ncSubject ("생명과학Ⅱ".data) = some ("생명과학2".data) ∧
    ncSubject ("화학".data) = none ∧
    ncSubject ("화학I".data) = none := by
  refine ⟨?_, by decide, by decide, by decide, by decide⟩
  intro t
  simp only [extract_subject]
  rw [wordsBy_getLast_eq_lastTokenRev
    (pyStripWs (t.map (fun c => if c = '\xa0' then ' ' else c))).length _ (Nat.le_refl _)]
